import Mathlib

/-!
Verification of the contentful-to-algolia reconciliation core.

This file shallowly embeds the two source files of the repository,
src/lib/Contentful.js and src/lib/Sync.js (the latter also contains the
Algolia class), and settles the frozen claims about them.

Modelling conventions:
* JavaScript values are modelled by the inductive `JVal` (strings, integer
  numbers, booleans, `undefined`, plain objects as association lists with
  unique keys, and arrays).  `null` values are outside the modelled scope:
  none of the claims involves them and several source paths would throw on
  them.
* JavaScript objects are mutated in place by the source (lodash `merge`,
  `delete`, property assignment).  Where aliasing is observable the model
  threads the mutated object explicitly as state and the doc comments name
  the aliased references; for the cycle-detection claims a heap model with
  explicit addresses is used, since cyclic object graphs cannot be
  represented by a tree-shaped inductive.
* Fallible paths (JavaScript `TypeError`s) are modelled with `Except`.
* The SHA-256 digest context of node `crypto` accumulates the bytes of all
  `update` calls and the digest is a deterministic function of that
  accumulated stream.  The model keeps the accumulated stream itself as the
  digest (an idealized, collision-free hash).  Equalities of digests proved
  here therefore hold for the real SHA-256 as well (the digest is a function
  of the stream); inequalities hold under the standard collision-free
  idealization the specification itself appeals to.
-/

namespace CTA

/-- JavaScript values, as far as the reconciliation core observes them. -/
inductive JVal where
  | str : String → JVal
  | num : Int → JVal
  | bool : Bool → JVal
  | undef : JVal
  | obj : List (String × JVal) → JVal
  | arr : List JVal → JVal
deriving Repr

/-- A JavaScript plain object: an association list with unique keys
(uniqueness is an invariant of all objects the source builds). -/
abbrev Obj := List (String × JVal)

/-- Property read `o[k]` on a plain object: `undefined` when absent. -/
def objGet (o : Obj) (k : String) : JVal :=
  match o.find? (fun p => p.1 == k) with
  | some p => p.2
  | none => JVal.undef

/-- Property write `o[k] = v`: overwrites an existing key, otherwise appends
(the JavaScript insertion-order semantics of plain objects). -/
def objSet (o : Obj) (k : String) (v : JVal) : Obj :=
  if o.any (fun p => p.1 == k) then
    o.map (fun p => if p.1 == k then (k, v) else p)
  else
    o ++ [(k, v)]

/-- Property removal `delete o[k]`. -/
def objDel (o : Obj) (k : String) : Obj :=
  o.filter (fun p => p.1 != k)

/-- Property read on an arbitrary value: reading a property of a non-object
yields `undefined` (string index and `length` properties are outside the
modelled scope; no locale code collides with them). -/
def propGet (v : JVal) (k : String) : JVal :=
  match v with
  | JVal.obj l => objGet l k
  | _ => JVal.undef

/-- JavaScript truthiness of a modelled value. -/
def truthy : JVal → Bool
  | JVal.str s => s ≠ ""
  | JVal.num n => n ≠ 0
  | JVal.bool b => b
  | JVal.undef => false
  | JVal.obj _ => true
  | JVal.arr _ => true

/-- `_.isUndefined`. -/
def isUndef : JVal → Bool
  | JVal.undef => true
  | _ => false

mutual
/-- Structural deep equality of values, modelling `_.isEqual` on the value
level.  Nested objects are compared in canonical key order (the source
builds them deterministically, so the order-insensitivity of lodash does
not separate the compared values on the modelled paths). -/
def jvalBeq : JVal → JVal → Bool
  | JVal.str a, JVal.str b => a == b
  | JVal.num a, JVal.num b => a == b
  | JVal.bool a, JVal.bool b => a == b
  | JVal.undef, JVal.undef => true
  | JVal.obj a, JVal.obj b => jvalObjBeq a b
  | JVal.arr a, JVal.arr b => jvalArrBeq a b
  | _, _ => false

def jvalObjBeq : List (String × JVal) → List (String × JVal) → Bool
  | [], [] => true
  | (k1, v1) :: r1, (k2, v2) :: r2 => k1 == k2 && jvalBeq v1 v2 && jvalObjBeq r1 r2
  | _, _ => false

def jvalArrBeq : List JVal → List JVal → Bool
  | [], [] => true
  | v1 :: r1, v2 :: r2 => jvalBeq v1 v2 && jvalArrBeq r1 r2
  | _, _ => false
end

mutual
/-- lodash `merge(object, source)` on the value level: plain objects are
merged recursively, arrays are merged index-wise, any other source value
overwrites the destination.  `merge` mutates and returns its first
argument; the model returns the value the mutated object holds
afterwards. -/
def jsMergeVal : JVal → JVal → JVal
  | JVal.obj d, JVal.obj s => JVal.obj (jsMergeObj d s)
  | JVal.arr d, JVal.arr s => JVal.arr (jsMergeArr d s)
  | _, s => s

/-- lodash `merge` over the keys of the source object.  A source property
that resolves to `undefined` is skipped when the destination already has a
defined value for the key. -/
def jsMergeObj : List (String × JVal) → List (String × JVal) → List (String × JVal)
  | d, [] => d
  | d, (k, v) :: rest =>
      jsMergeObj
        (match v with
         | JVal.undef => if isUndef (objGet d k) then objSet d k JVal.undef else d
         | _ => objSet d k (jsMergeVal (objGet d k) v))
        rest

/-- lodash `merge` on arrays: index-wise merge, the longer destination tail
is kept. -/
def jsMergeArr : List JVal → List JVal → List JVal
  | d, [] => d
  | [], v :: rest => v :: jsMergeArr [] rest
  | dv :: dr, v :: rest => jsMergeVal dv v :: jsMergeArr dr rest
end

/-! ## Contentful.js: the locale flattener (tree model)

The locale configuration `this.locales` is a sequence of fallback groups,
each an ordered sequence of locale codes.  An absent (or otherwise falsy)
configuration is modelled by `none`; the present configuration, including
the empty one, by `some groups` (an empty JavaScript array is truthy, so
`!this.locales` distinguishes exactly these two cases). -/

/-- `_getLocaleString` (Contentful.js lines 302-316).  Scans the fallback
codes in order; the source guard is `field[currentLocale] &&
!localizedField`, a truthiness test on both the candidate value and the
accumulator, not a presence test. -/
def getLocaleString (field : JVal) (locale : List String) : JVal :=
  locale.foldl
    (fun acc c => if truthy (propGet field c) && !(truthy acc) then propGet field c else acc)
    JVal.undef

/-- `_getFieldsForLocale` (lines 284-294): resolves every field of the
fieldset against one fallback group and stamps `locale` with the first code
of the group (`locale[0]`, `undefined` for an empty group).  A `for..in`
loop over `undefined` performs no iterations, hence the non-object case. -/
def getFieldsForLocale (fields : JVal) (locale : List String) : Obj :=
  let base : Obj :=
    match fields with
    | JVal.obj l => l.map (fun p => (p.1, getLocaleString p.2 locale))
    | _ => []
  objSet base "locale" (match locale with | [] => JVal.undef | c :: _ => JVal.str c)

/-- `_mergeFields` (lines 225-230): `merge(entry, fields)` followed by
`delete entry.fields`.  The defaulted parameter `fields = {}` applies when
the call passes `undefined`; a primitive source is outside the modelled
scope (no modelled path passes one). -/
def mergeFields (entry : Obj) (fields : JVal) : Obj :=
  let f : Obj :=
    match fields with
    | JVal.obj l => l
    | _ => []
  objDel (jsMergeObj entry f) "fields"

/-- `_cleanEntry` (lines 177-217).  Extracts the content-type identifier
(`entry.sys.contentType.sys.id`, the literal `false` when
`entry.sys.contentType` is falsy), strips the bookkeeping keys of the
system envelope (or the whole envelope when `full`), attaches the raw
fieldset, and, when the fieldset is an object without a truthy
`contentType`, replicates the extracted identifier under every locale code
of every fallback group — `this.locales.forEach` at line 209, which throws
when the configuration is absent.  When `full`, `newEntry` stays the fresh
object initialised with `fields = {}` at line 181; otherwise `newEntry` is
re-bound to the trimmed `entry.sys` object (line 201). -/
def cleanEntry (locales : Option (List (List String))) (entry : Obj) (full : Bool) :
    Except String Obj := do
  let sysv := objGet entry "sys"
  let (ctVal, base) ←
    match sysv with
    | JVal.obj sys => do
        let ctv := objGet sys "contentType"
        let ct ←
          if truthy ctv then
            match ctv with
            | JVal.obj cts =>
                match objGet cts "sys" with
                | JVal.obj cs => pure (objGet cs "id")
                | _ => Except.error "TypeError: cannot read id of undefined"
            | _ => Except.error "TypeError: cannot read sys of a primitive contentType"
          else
            pure (JVal.bool false)
        let b : Obj :=
          if full then [("fields", JVal.obj [])]
          else sys.filter (fun p =>
            !(p.1 == "space" || p.1 == "contentType" || p.1 == "type" || p.1 == "revision"))
        pure (ct, b)
    | JVal.undef => pure (JVal.bool false, ([("fields", JVal.obj [])] : Obj))
    | _ => Except.error "unmodelled: primitive system envelope"
  let newE := objSet base "fields" (objGet entry "fields")
  match objGet newE "fields" with
  | JVal.obj fl =>
      if truthy (objGet fl "contentType") then
        pure newE
      else
        match locales with
        | none => Except.error "TypeError: this.locales is undefined at line 209"
        | some groups =>
            let ctObj : Obj :=
              (groups.flatten).foldl (fun acc code => objSet acc code ctVal) []
            pure (objSet newE "fields" (JVal.obj (objSet fl "contentType" (JVal.obj ctObj))))
  | _ => pure newE

mutual
/-- `_getFieldEntry` (lines 239-260): for an array-valued field, each
element that is an object is fully stripped, merged with its own fieldset
and locale-resolved; other elements pass through (array elements that are
themselves arrays are outside the modelled scope).  `fuel` bounds the
progress of the (in JavaScript unbounded) recursion through nested
reference arrays; exhaustion surfaces as an explicit error and never as a
silently wrong value. -/
def getFieldEntry : Nat → Option (List (List String)) → Obj → String → List String →
    Except String Obj
  | 0, _, _, _, _ => Except.error "recursion fuel exhausted"
  | Nat.succ f, locales, fields, key, locale =>
      if !(truthy (objGet fields key)) then
        pure fields
      else
        match objGet fields key with
        | JVal.arr l => do
            let l1 ← getElems f locales locale l
            pure (objSet fields key (JVal.arr l1))
        | _ => pure fields

/-- The `fields[key].map` body of `_getFieldEntry` (lines 245-256). -/
def getElems : Nat → Option (List (List String)) → List String → List JVal →
    Except String (List JVal)
  | 0, _, _, _ => Except.error "recursion fuel exhausted"
  | Nat.succ f, locales, locale, l =>
      match l with
      | [] => pure []
      | v :: rest => do
          let v1 ←
            match v with
            | JVal.obj o => do
                let e1 ← cleanEntry locales o true
                let e2 := mergeFields e1 (objGet e1 "fields")
                let e3 ← getFieldsGo f locales (e2.map (fun p => p.1)) e2 locale
                pure (JVal.obj (getFieldsForLocale (JVal.obj e3) locale))
            | _ => pure v
          let r ← getElems f locales locale rest
          pure (v1 :: r)

/-- `_getFields` (lines 268-276): iterates the keys of the fieldset,
threading the (in place mutated) fieldset through `_getFieldEntry`.  The
key list is the snapshot taken when the loop starts; `_getFieldEntry`
never adds or removes keys. -/
def getFieldsGo : Nat → Option (List (List String)) → List String → Obj → List String →
    Except String Obj
  | 0, _, _, _, _ => Except.error "recursion fuel exhausted"
  | Nat.succ f, locales, keys, fields, locale =>
      match keys with
      | [] => pure fields
      | k :: rest => do
          let f1 ← getFieldEntry f locales fields k locale
          getFieldsGo f locales rest f1 locale
end

/-- `_getFields` entry point. -/
def getFields (fuel : Nat) (locales : Option (List (List String)))
    (fields : Obj) (locale : List String) : Except String Obj :=
  getFieldsGo fuel locales (fields.map (fun p => p.1)) fields locale

/-- `_cleanLocales` (lines 159-169): every object-valued property carrying
a truthy `fields` is replaced by the locale resolution of that fieldset.
Array-valued properties have no `fields` property and pass through. -/
def cleanLocales (entry : Obj) (locale : List String) : Obj :=
  entry.map (fun p =>
    match p.2 with
    | JVal.obj l =>
        if truthy (objGet l "fields") then
          (p.1, JVal.obj (getFieldsForLocale (objGet l "fields") locale))
        else p
    | _ => p)

/-- `_cleanMore` as invoked from the flattening loop (line 101), i.e. with
the defaulted empty visited stack: `_.indexOf([], entry)` is `-1`, which is
truthy, so the guard at lines 121-124 returns the argument before the body
is reached.  The general model, including the body and arbitrary stacks
and cyclic graphs, is `cleanMoreH` below; `cleanMoreH_guard_empty` proves
this immediate return. -/
def cleanMoreTop (entry : Obj) : Obj := entry

/-- `recordsOf` observes what the caller of `_getLocalizedEntries` sees:
either the single object of the absent-configuration branch or the pushed
array (lodash `flatten` downstream treats a lone object as one element). -/
def recordsOf : Obj ⊕ List Obj → List Obj
  | Sum.inl o => [o]
  | Sum.inr l => l

/-- One iteration of the `this.locales.forEach` body (lines 91-105).
`newEntry` aliases the cleaned entry (`let newEntry = entry`), lodash
`merge` mutates and returns its first argument, `_cleanMore` returns its
argument unchanged (see `cleanMoreTop`), and `_cleanLocales` mutates in
place — so the state threaded here is the one shared object all
iterations read, mutate and push. -/
def localizeStep (fuel : Nat) (locales : Option (List (List String)))
    (state : Obj) (g : List String) : Except String Obj := do
  let fields := objGet state "fields"
  let f1 := getFieldsForLocale fields g
  let f2 ← getFields fuel locales f1 g
  let merged := mergeFields state (JVal.obj f2)
  let cm := cleanMoreTop merged
  pure (cleanLocales cm g)

/-- `_getLocalizedEntries` (lines 82-108).  With an absent configuration it
returns the single merged object of line 87.  With a present configuration
it runs the per-group loop; every iteration pushes the same object
reference (see `localizeStep`), so the array the caller observes holds
`groups.length` references to the final state of that object. -/
def getLocalizedEntries (fuel : Nat) (locales : Option (List (List String)))
    (entry : Obj) : Except String (Obj ⊕ List Obj) := do
  let cleaned ← cleanEntry locales entry false
  match locales with
  | none => pure (Sum.inl (mergeFields cleaned (objGet cleaned "fields")))
  | some groups => do
      let final ← groups.foldlM (localizeStep fuel locales) cleaned
      pure (Sum.inr (List.replicate groups.length final))

/-! ## Contentful.js: `_cleanMore` on an explicit heap

Self-referential and mutually-referential content graphs are cyclic, so
they cannot be values of a tree-shaped inductive.  This second model gives
objects explicit addresses into a heap; a property holds either a scalar
or a reference.  `_.indexOf(cleanStack, entry)` compares objects by
reference, i.e. by address. -/

/-- Heap-model values: scalars, `undefined`, or a reference to a heap
object.  Array-valued properties are outside this model (they occur only
inside the `_cleanMore` body, which `cleanMoreH_guard_empty` shows is
unreachable from the flattening entry point). -/
inductive HVal where
  | prim : String → HVal
  | num : Int → HVal
  | undef : HVal
  | ref : Nat → HVal

/-- A heap object: association list of properties. -/
abbrev HObj := List (String × HVal)

/-- The heap: object at address `a` is the `a`-th entry. -/
abbrev Heap := List HObj

def heapGet (H : Heap) (a : Nat) : HObj := H.getD a []

def heapSet (H : Heap) (a : Nat) (o : HObj) : Heap := H.set a o

def hobjGet (o : HObj) (k : String) : HVal :=
  match o.find? (fun p => p.1 == k) with
  | some p => p.2
  | none => HVal.undef

def hobjSet (o : HObj) (k : String) (v : HVal) : HObj :=
  if o.any (fun p => p.1 == k) then
    o.map (fun p => if p.1 == k then (k, v) else p)
  else
    o ++ [(k, v)]

/-- Truthiness of a heap-model value. -/
def htruthy : HVal → Bool
  | HVal.prim s => s ≠ ""
  | HVal.num n => n ≠ 0
  | HVal.undef => false
  | HVal.ref _ => true

/-- `_.indexOf` over a stack of object references: `-1` when absent,
otherwise the first position. -/
def jsIndexOfNat (l : List Nat) (a : Nat) : Int :=
  match l.findIdx? (fun b => b == a) with
  | none => -1
  | some i => (i : Int)

/-- `_cleanEntry` on the heap (lines 177-217), as called from the
`_cleanMore` body at line 130 (with the default `full = false`).  The
content-type chase is total here (a malformed envelope is outside the
modelled scope); the trimmed `entry.sys` object becomes the returned
object, the raw fieldset is attached to it and the content-type tag is
injected into the fieldset when missing.  All of this is unreachable from
the flattening entry point (see `cleanMoreH_guard_empty`). -/
def cleanEntryH (cfg : List (List String)) (H : Heap) (a : Nat) : Heap × Nat :=
  match hobjGet (heapGet H a) "sys" with
  | HVal.ref s =>
      let ctVal : HVal :=
        match hobjGet (heapGet H s) "contentType" with
        | HVal.ref c =>
            match hobjGet (heapGet H c) "sys" with
            | HVal.ref cs => hobjGet (heapGet H cs) "id"
            | _ => HVal.undef
        | _ => HVal.prim ""
      let trimmed := (heapGet H s).filter (fun p =>
        !(p.1 == "space" || p.1 == "contentType" || p.1 == "type" || p.1 == "revision"))
      let H1 := heapSet H s (hobjSet trimmed "fields" (hobjGet (heapGet H a) "fields"))
      let H2 :=
        match hobjGet (heapGet H1 s) "fields" with
        | HVal.ref f =>
            if htruthy (hobjGet (heapGet H1 f) "contentType") then H1
            else
              let codes := cfg.flatten
              let ctObj : HObj := codes.foldl (fun acc code => hobjSet acc code ctVal) []
              let H1a := H1 ++ [ctObj]
              heapSet H1a f (hobjSet (heapGet H1a f) "contentType" (HVal.ref H1.length))
        | _ => H1
      (H2, s)
  | _ =>
      let fresh : HObj := [("fields", hobjGet (heapGet H a) "fields")]
      (H ++ [fresh], H.length)

/-- Shallow key-wise model of the final `merge(entry, newEntry)` at line
150 (unreachable from the flattening entry point). -/
def hmergeInto (H : Heap) (a : Nat) (ne : HObj) : Heap :=
  heapSet H a (ne.foldl (fun o p => hobjSet o p.1 p.2) (heapGet H a))

mutual
/-- `_cleanMore` (lines 117-151) on the heap.  The guard at lines 121-124
returns the entry whenever `_.indexOf(cleanStack, entry)` is truthy, i.e.
whenever the result is not `0`: both `-1` (entry absent from the stack)
and every position `≥ 1` are truthy, so the body runs only when the entry
sits at stack position `0`.  `fuel` bounds the recursion depth; the body
can genuinely exhaust it on a cyclic heap (see `cleanMoreH_no_fuel_on_cycle`),
which is exactly the unbounded recursion the guard is meant to prevent. -/
def cleanMoreH (fuel : Nat) (cfg : List (List String)) (H : Heap)
    (stack : List Nat) (a : Nat) (locale : List String) : Option (Heap × Nat) :=
  match fuel with
  | 0 => none
  | Nat.succ f =>
      if jsIndexOfNat stack a ≠ 0 then
        some (H, a)
      else
        match cleanMoreGo f cfg H stack a locale (heapGet H a) [] with
        | none => none
        | some (H1, newE) => some (hmergeInto H1 a newE, a)
termination_by (fuel, 0)

/-- The `for (let key in entry)` body of `_cleanMore` (lines 126-148):
object-valued properties with a truthy `sys` are cleaned (line 130); the
`elements` collection branch (lines 131-141) requires array-valued
properties and is outside this value universe; every other object-valued
property is recursed into with the entry pushed on the visited stack
(lines 143-145). -/
def cleanMoreGo (fuel : Nat) (cfg : List (List String)) (H : Heap)
    (stack : List Nat) (a : Nat) (locale : List String) :
    List (String × HVal) → HObj → Option (Heap × HObj)
  | [], acc => some (H, acc)
  | (k, v) :: rest, acc =>
      match v with
      | HVal.ref b =>
          if htruthy (hobjGet (heapGet H b) "sys") then
            let (H1, r) := cleanEntryH cfg H b
            cleanMoreGo fuel cfg H1 stack a locale rest (acc ++ [(k, HVal.ref r)])
          else
            match cleanMoreH fuel cfg H (stack ++ [a]) b locale with
            | none => none
            | some (H1, r) => cleanMoreGo fuel cfg H1 stack a locale rest (acc ++ [(k, HVal.ref r)])
      | _ => cleanMoreGo fuel cfg H stack a locale rest acc
termination_by l _ => (fuel, l.length + 1)
end

/-! ## Sync.js / Algolia: fingerprints, diff engine, batch committer -/

/-- `crypto.createHash('sha256')`: a fresh digest context with an empty
accumulated stream. -/
def sha256Init : String := ""

/-- `hash.update(s)`: appends the bytes of `s` to the accumulated
stream. -/
def hashUpdate (ctx : String) (s : String) : String := ctx ++ s

/-- `hash.digest('hex')`, idealized: the real digest is a deterministic
function of the accumulated stream, and SHA-256 collisions between
distinct streams are treated as impossible (the collision-free
idealization the specification appeals to), so the model takes the stream
itself as the digest.  Every digest equality proved below therefore holds
for the real SHA-256 as well. -/
def hashDigestHex (ctx : String) : String := ctx

/-- The body of `getEntryKey` (Sync.js lines 131-136): `id` then `locale`
fed as two successive updates into one digest context. -/
def fingerprintOf (id : String) (locale : String) : String :=
  hashDigestHex (hashUpdate (hashUpdate sha256Init id) locale)

/-- An incoming flat record as the diff engine sees it: `id` and `locale`
are strings (the hash update requires them), `objectID` is optional (it is
attached in place when the record is matched to a snapshot hit), and every
other top-level property lives in `props`. -/
structure Entry where
  id : String
  locale : String
  objectID : Option String
  props : Obj

instance : Inhabited Entry := ⟨⟨"", "", none, []⟩⟩

/-- A snapshot hit: same shape with a mandatory `objectID`; `contentType`
and the data fields live in `props`. -/
structure Hit where
  id : String
  locale : String
  objectID : String
  props : Obj

/-- `getEntryKey` applied to an incoming record. -/
def getEntryKey (e : Entry) : String := fingerprintOf e.id e.locale

/-- `getEntryKey` applied to a snapshot hit (the same function in the
source; it reads `id` and `locale` generically). -/
def hitKey (h : Hit) : String := fingerprintOf h.id h.locale

/-- `_.keyBy(data, getEntryKey)` (line 137), observed through lookups: the
index of the record a key maps to.  `keyBy` lets later records overwrite
earlier ones, hence the right-most match wins. -/
def keyByLookupAux (data : List Entry) (k : String) (i : Nat) : Option Nat :=
  match data with
  | [] => none
  | e :: rest =>
      match keyByLookupAux rest k (i + 1) with
      | some j => some j
      | none => if getEntryKey e == k then some i else none

def keyByLookup (data : List Entry) (k : String) : Option Nat :=
  keyByLookupAux data k 0

/-- `_.filter(hits, \x7bcontentType: contentType\x7d)` (line 159): lodash
matches-shorthand, deep equality on the `contentType` property. -/
def passesFilter (ct : String) (h : Hit) : Bool :=
  jvalBeq (objGet h.props "contentType") (JVal.str ct)

/-- `_.isEqual(compactEntry, hit)` (line 172) after the hit objectID has
been attached: `compactEntry` is the record with its undefined-valued
properties removed by `_.omitBy(_, _.isUndefined)` (line 171); `id`,
`locale` and the freshly assigned `objectID` are never undefined.  Hits
come from the index and store no undefined values, so a lookup-based
two-way comparison of the defined properties models the lodash key-set
equality exactly. -/
def isEqualProps (a b : Obj) : Bool :=
  a.all (fun p => jvalBeq p.2 (objGet b p.1)) &&
  b.all (fun p => jvalBeq p.2 (objGet a p.1))

def entryHitEq (e : Entry) (h : Hit) : Bool :=
  e.id == h.id && e.locale == h.locale &&
  (match e.objectID with
   | some s => s == h.objectID
   | none => false) &&
  isEqualProps (e.props.filter (fun p => !(isUndef p.2))) h.props

/-- The state threaded through the `_.each(hits, ...)` loop (lines
167-178): `data` holds the incoming records (the hit objectID assignment
at line 170 mutates the record in place, visible both through
`entriesIndex` and through `data`); `updatedIdx` records which objects
were pushed into `results.updated` (the push stores a reference, so the
observed element is the final state of that object); `deleted` collects
the pushed object identifiers. -/
structure DiffAcc where
  data : List Entry
  updatedIdx : List Nat
  deleted : List String

/-- The classification produced by one diff pass. -/
structure DiffResult where
  created : List Entry
  updated : List Entry
  deleted : List String

/-- One iteration of the `_.each(hits, ...)` loop.  `entriesIndex` was
built from the original records (line 137) and the mutation never touches
`id` or `locale`, so the lookup is computed against the original list. -/
def diffStep (data0 : List Entry) (ctFilter : Option String)
    (acc : DiffAcc) (h : Hit) : DiffAcc :=
  match keyByLookup data0 (hitKey h) with
  | some i =>
      let e := acc.data.getD i default
      let e1 := { e with objectID := some h.objectID }
      let acc1 := { acc with data := acc.data.set i e1 }
      if entryHitEq e1 h then acc1
      else { acc1 with updatedIdx := acc1.updatedIdx ++ [i] }
  | none =>
      match ctFilter with
      | some _ => { acc with deleted := acc.deleted ++ [h.objectID] }
      | none => acc

/-- The pure core of `getElementsPromise` (lines 157-183), applied once the
snapshot has been delivered: optional content-type restriction of the
hits, the classification loop, and `results.created = _.filter(data,
entry => !entry.objectID)` (line 180) — note that `!entry.objectID` is a
truthiness test, so both a missing and an empty-string objectID count as
"never matched". -/
def runDiff (data : List Entry) (hits : List Hit) (ctFilter : Option String) :
    DiffResult :=
  let hits1 := match ctFilter with
    | none => hits
    | some ct => hits.filter (passesFilter ct)
  let acc := hits1.foldl (diffStep data ctFilter) ⟨data, [], []⟩
  { created := acc.data.filter (fun e =>
      match e.objectID with
      | none => true
      | some s => s == "")
  , updated := acc.updatedIdx.map (fun i => acc.data.getD i default)
  , deleted := acc.deleted }

/-! ### Index snapshot cache and orchestrator fetch behaviour -/

/-- The per-instance state of the `Algolia` class: the constructor (line
106) initialises `cachedResults` to `null`. -/
structure AlgoliaClient where
  cachedResults : Option (List Hit)

/-- `new Algolia(config, index)`. -/
def newAlgolia : AlgoliaClient := { cachedResults := none }

/-- The destination-index collaborator: `browseAll` drains the full index
contents. -/
def browseAll (remote : List Hit) : List Hit := remote

/-- The snapshot-and-diff part of `getElementsPromise` (lines 138-157): on
a cold cache the browse is issued (counted by the middle component) and
memoized; on a warm cache the stored promise is reused without any
network traffic. -/
def getElementsPromise (remote : List Hit) (st : AlgoliaClient)
    (data : List Entry) (ctFilter : Option String) :
    AlgoliaClient × Nat × DiffResult :=
  match st.cachedResults with
  | some hits => (st, 0, runDiff data hits ctFilter)
  | none =>
      let hits := browseAll remote
      ({ cachedResults := some hits }, 1, runDiff data hits ctFilter)

/-- `Sync.singleCallback` (lines 26-40) constructs a NEW `Algolia` client
at line 34 for the content type it handles and calls `indexData` on it
without a content-type argument; the snapshot fetches this triggers. -/
def singleCallbackFetches (remote : List Hit) (content : List Entry) : Nat :=
  (getElementsPromise remote newAlgolia content none).2.1

/-- One orchestrator run (`Sync.sync`, lines 52-74): `singleCallback` is
invoked once per content type; the total number of snapshot fetches of the
run. -/
def syncFetches (remote : List Hit) (content : List (String × List Entry)) : Nat :=
  (content.map (fun tc => singleCallbackFetches remote tc.2)).sum

/-! ### Batch committer -/

/-- `addObjects` (lines 296-312): an empty input returns the literal
`\x7bobjectIDs: []\x7d` without touching the network; otherwise the bulk
call is issued.  The first component counts issued network calls, the
collaborator `net` supplies the identifiers the index answers with. -/
def addObjects (net : List Entry → List String) (objects : List Entry) :
    Nat × List String :=
  if objects.length = 0 then (0, []) else (1, net objects)

/-- `updateObjects` (lines 319-335), same skip-on-empty shape. -/
def updateObjects (net : List Entry → List String) (objects : List Entry) :
    Nat × List String :=
  if objects.length = 0 then (0, []) else (1, net objects)

/-- `deleteObjects` (lines 342-358), same skip-on-empty shape over object
identifiers. -/
def deleteObjects (net : List String → List String) (objects : List String) :
    Nat × List String :=
  if objects.length = 0 then (0, []) else (1, net objects)

/-- `getMergedObjects` (lines 209-217): concatenates the `objectIDs` of
the three operation results. -/
def getMergedObjects (data : List (List String)) : List String :=
  data.foldl (fun acc l => acc ++ l) []

/-- `indexObjects` (lines 194-202): the three bulk operations run under
`Promise.all` and their identifier lists are merged.  The first component
is the total number of network calls issued. -/
def indexObjects (netAdd netUpd : List Entry → List String)
    (netDel : List String → List String)
    (created updated : List Entry) (deleted : List String) :
    Nat × List String :=
  let a := addObjects netAdd created
  let u := updateObjects netUpd updated
  let d := deleteObjects netDel deleted
  (a.1 + u.1 + d.1, getMergedObjects [a.2, u.2, d.2])

/-! ## Reference behaviour claimed by the specification -/

/-- The resolution rule of the amended field-fallback claim: the value of
the first locale code of the group whose value in the field mapping is
truthy, `undefined` when no code has a truthy value. -/
def specFirstTruthy (field : JVal) : List String → JVal
  | [] => JVal.undef
  | c :: rest =>
      if truthy (propGet field c) then propGet field c else specFirstTruthy field rest

/-! ## Concrete inputs used by the evaluations below -/

/-- A representative raw entry: system envelope with identifier, content
type, bookkeeping keys, and a bilingual `title` field. -/
def E3 : Obj :=
  [("sys", JVal.obj [("id", JVal.str "e1"),
      ("contentType", JVal.obj [("sys", JVal.obj [("id", JVal.str "page")])]),
      ("space", JVal.str "s"), ("type", JVal.str "Entry"), ("revision", JVal.num 1),
      ("createdAt", JVal.str "t0")]),
   ("fields", JVal.obj [("title", JVal.obj [("en", JVal.str "A"), ("de", JVal.str "B")])])]

/-- The one object all records returned for `E3` alias: fields resolved
against the first fallback group, `locale` overwritten by the last. -/
def F3 : Obj :=
  [("id", JVal.str "e1"), ("createdAt", JVal.str "t0"),
   ("title", JVal.str "A"), ("contentType", JVal.str "page"), ("locale", JVal.str "de")]

/-- `E3` cleaned against the empty locale configuration. -/
def C7cA : Obj :=
  [("id", JVal.str "e1"), ("createdAt", JVal.str "t0"),
   ("fields", JVal.obj [("title", JVal.obj [("en", JVal.str "A"), ("de", JVal.str "B")]),
     ("contentType", JVal.obj [])])]

/-- A raw entry whose fieldset already carries a truthy `contentType`, so
the absent-configuration path survives entry normalization. -/
def E3ct : Obj :=
  [("sys", JVal.obj [("id", JVal.str "e1"),
      ("contentType", JVal.obj [("sys", JVal.obj [("id", JVal.str "page")])])]),
   ("fields", JVal.obj [("title", JVal.obj [("en", JVal.str "A")]),
      ("contentType", JVal.str "page")])]

/-- `E3ct` cleaned against the absent locale configuration. -/
def C7cB : Obj :=
  [("id", JVal.str "e1"),
   ("fields", JVal.obj [("title", JVal.obj [("en", JVal.str "A")]),
     ("contentType", JVal.str "page")])]

/-- An entry without a system envelope whose fieldset lacks a content
type: the absent-configuration path throws on it at line 209. -/
def E7ns : Obj := [("fields", JVal.obj [("title", JVal.obj [("en", JVal.str "A")])])]

/-- The fieldset of `E7ns`. -/
def FL7 : Obj := [("title", JVal.obj [("en", JVal.str "A")])]

/-- A one-object heap whose object references itself: the smallest cyclic
content graph. -/
def cyclicHeap : Heap := [[("self", HVal.ref 0)]]

/-- A snapshot hit of content type `page` used against a `post` filter. -/
def hX : Hit := ⟨"e9", "en", "obj9", [("contentType", JVal.str "page")]⟩

/-- A snapshot hit of content type `page` used against a matching
filter. -/
def hW : Hit := ⟨"e8", "en", "obj8", [("contentType", JVal.str "page")]⟩

/-- An incoming record matching `hMW` with identical defined fields. -/
def eW : Entry := ⟨"e1", "en", none, [("title", JVal.str "A"), ("contentType", JVal.str "page")]⟩

/-- The snapshot hit matching `eW`. -/
def hMW : Hit := ⟨"e1", "en", "obj1", [("title", JVal.str "A"), ("contentType", JVal.str "page")]⟩

/-! ## Basic lemmas about the embedded operations -/

theorem getEntryKey_concat (e : Entry) : getEntryKey e = e.id ++ e.locale := rfl

theorem hitKey_concat (h : Hit) : hitKey h = h.id ++ h.locale := rfl

theorem singleCallbackFetches_one (remote : List Hit) (content : List Entry) :
    singleCallbackFetches remote content = 1 := rfl

/-! ## Claim C1: fingerprint collisions -/

/-- C1 counterexample.  The claim states that the inputs
`(id = "ab", locale = "c")` and `(id = "a", locale = "bc")` cannot collide;
in fact the two successive updates feed the identical byte stream `abc`
into the digest context, so the two fingerprints are equal.  This equality
holds for the real SHA-256 as well, since the digest is a function of the
accumulated stream. -/
theorem C1_counterexample :
    getEntryKey ⟨"ab", "c", none, []⟩ = getEntryKey ⟨"a", "bc", none, []⟩ := rfl

/-- C1 amended: two records have equal fingerprints exactly when the
undelimited concatenations of their `id` and `locale` are equal (under the
collision-free idealization of SHA-256); in particular pairs differing in
`id` or `locale` can collide whenever the concatenations agree. -/
theorem C1_fingerprint_eq_iff (e1 e2 : Entry) :
    getEntryKey e1 = getEntryKey e2 ↔ e1.id ++ e1.locale = e2.id ++ e2.locale := by
  rw [getEntryKey_concat, getEntryKey_concat]

/-! ## Claim C2: snapshot fetched at most once per run -/

/-- C2 counterexample.  A run of the orchestrator over two content types
issues two snapshot fetches, because `singleCallback` constructs a fresh
`Algolia` client (with a cold cache) for every content type at Sync.js
line 34; the claim asserts at most one fetch per run. -/
theorem C2_counterexample :
    syncFetches [] [("t1", []), ("t2", [])] = 2 ∧
    ¬ syncFetches [] [("t1", []), ("t2", [])] ≤ 1 := by
  constructor
  · rfl
  · decide

/-- C2 amended: the snapshot is fetched at most once per `Algolia` client
instance — a cold client fetches exactly once and caches the result, a
warm client fetches zero times and reuses the cached snapshot for its
diff — but the orchestrator constructs a new client per content type, so
one run over a list of content types issues exactly one fetch per type. -/
theorem C2_per_instance_cache (remote : List Hit) (data data2 : List Entry)
    (ct1 ct2 : Option String) (hits : List Hit)
    (content : List (String × List Entry)) :
    (getElementsPromise remote newAlgolia data ct1).2.1 = 1 ∧
    (getElementsPromise remote newAlgolia data ct1).1.cachedResults = some (browseAll remote) ∧
    getElementsPromise remote ⟨some hits⟩ data2 ct2 = (⟨some hits⟩, 0, runDiff data2 hits ct2) ∧
    syncFetches remote content = content.length := by
  refine ⟨rfl, rfl, rfl, ?_⟩
  induction content with
  | nil => rfl
  | cons hd tl ih =>
      show (List.map _ (hd :: tl)).sum = (hd :: tl).length
      rw [List.map_cons, List.sum_cons, List.length_cons]
      have h1 : singleCallbackFetches remote hd.2 = 1 := rfl
      have h2 : (List.map (fun tc => singleCallbackFetches remote tc.2) tl).sum = tl.length := ih
      omega

/-! ## Claim C3: one record per fallback group, locale of its group -/

/-- C3 evaluation at the failing input.  Flattening `E3` against the two
fallback groups `["en"]` and `["de"]` yields a list of two references to
one and the same object `F3`: `let newEntry = entry` aliases the cleaned
entry, lodash `merge` mutates it in place, and the loop pushes the same
reference every iteration.  Both observed records carry
`locale = "de"` (the last group) and `title = "A"` (resolved against the
first group), while the claim requires the first record to carry
`locale = "en"`. -/
theorem C3_alias_evaluation :
    (getLocalizedEntries 20 (some [["en"], ["de"]]) E3).map recordsOf =
      Except.ok [F3, F3] ∧
    (getLocalizedEntries 20 (some [["en"], ["de"]]) E3).map
      (fun s => (recordsOf s).map (fun r => objGet r "locale")) =
      Except.ok [JVal.str "de", JVal.str "de"] :=
  ⟨rfl, rfl⟩

/-! ## Claim C4: field fallback picks the first PRESENT value -/

/-- C4 counterexample.  In the field mapping `en ↦ "" , de ↦ "X"` the code
`en` is present with the falsy value `""`, and the claim requires the
resolution for the group `["en", "de"]` to pick that value; the source
guard `field[currentLocale] && !localizedField` skips it and picks
`"X"`. -/
theorem C4_counterexample :
    propGet (JVal.obj [("en", JVal.str ""), ("de", JVal.str "X")]) "en" = JVal.str "" ∧
    getLocaleString (JVal.obj [("en", JVal.str ""), ("de", JVal.str "X")]) ["en", "de"] =
      JVal.str "X" ∧
    JVal.str "X" ≠ JVal.str "" := by
  refine ⟨rfl, rfl, ?_⟩
  intro h
  injection h with h2
  exact absurd h2 (by decide)

theorem getLocaleString_foldl_of_truthy (field : JVal) (codes : List String) (acc : JVal)
    (h : truthy acc = true) :
    codes.foldl
      (fun acc c => if truthy (propGet field c) && !(truthy acc) then propGet field c else acc)
      acc = acc := by
  induction codes with
  | nil => rfl
  | cons c rest ih =>
      rw [List.foldl_cons]
      have hstep :
          (if truthy (propGet field c) && !(truthy acc) then propGet field c else acc) = acc := by
        simp [h]
      rw [hstep]
      exact ih

/-- C4 amended: per field, the source picks the value of the first locale
code of the group whose value is truthy (a falsy present value — empty
string, zero, false — is skipped like an absent one), and yields
`undefined` when no code of the group has a truthy value. -/
theorem C4_first_truthy (field : JVal) (codes : List String) :
    getLocaleString field codes = specFirstTruthy field codes := by
  induction codes with
  | nil => rfl
  | cons c rest ih =>
      by_cases hc : truthy (propGet field c) = true
      · have h1 : getLocaleString field (c :: rest) = propGet field c := by
          unfold getLocaleString
          rw [List.foldl_cons]
          have hstep :
              (if truthy (propGet field c) && !(truthy JVal.undef) then propGet field c
               else JVal.undef) = propGet field c := by
            rw [hc]; rfl
          rw [hstep]
          exact getLocaleString_foldl_of_truthy field rest _ hc
        have h2 : specFirstTruthy field (c :: rest) = propGet field c := by
          rw [specFirstTruthy, if_pos hc]
        rw [h1, h2]
      · have hc2 : truthy (propGet field c) = false := by
          cases h : truthy (propGet field c)
          · rfl
          · exact absurd h hc
        have h1 : getLocaleString field (c :: rest) = getLocaleString field rest := by
          unfold getLocaleString
          rw [List.foldl_cons]
          have hstep :
              (if truthy (propGet field c) && !(truthy JVal.undef) then propGet field c
               else JVal.undef) = JVal.undef := by
            rw [hc2]; rfl
          rw [hstep]
        have h2 : specFirstTruthy field (c :: rest) = specFirstTruthy field rest := by
          rw [specFirstTruthy, if_neg hc]
        rw [h1, h2, ih]

/-! ## Claim C7: empty versus absent locale configuration -/

/-- C7 counterexample.  The claim states that an empty locale
configuration produces exactly one record; the source reaches the
`forEach` branch (an empty JavaScript array is truthy, so
`!this.locales` is false) and pushes nothing, producing zero records. -/
theorem C7_counterexample :
    (getLocalizedEntries 20 (some []) E3).map (fun s => (recordsOf s).length) =
      Except.ok 0 := rfl

/-- C7 amended: with an empty (present) configuration flattening yields
zero records; with an absent configuration it yields exactly one record —
provided entry normalization survives, which requires the raw fieldset to
already carry a truthy content type, since the tag-injection loop at line
209 dereferences the absent configuration and throws otherwise. -/
theorem C7_empty_vs_absent :
    (∀ (entry : Obj) (fuel : Nat) (c : Obj),
        cleanEntry (some []) entry false = Except.ok c →
        getLocalizedEntries fuel (some []) entry = Except.ok (Sum.inr [])) ∧
    (∀ (entry : Obj) (fuel : Nat) (c : Obj),
        cleanEntry none entry false = Except.ok c →
        getLocalizedEntries fuel none entry =
          Except.ok (Sum.inl (mergeFields c (objGet c "fields"))) ∧
        (recordsOf (Sum.inl (mergeFields c (objGet c "fields")) : Obj ⊕ List Obj)).length = 1) ∧
    (∀ (entry : Obj) (fl : Obj) (fuel : Nat),
        objGet entry "sys" = JVal.undef →
        objGet entry "fields" = JVal.obj fl →
        truthy (objGet fl "contentType") = false →
        getLocalizedEntries fuel none entry =
          Except.error "TypeError: this.locales is undefined at line 209") := by
  refine ⟨?_, ?_, ?_⟩
  · intro entry fuel c h
    unfold getLocalizedEntries
    rw [h]
    rfl
  · intro entry fuel c h
    unfold getLocalizedEntries
    rw [h]
    exact ⟨rfl, rfl⟩
  · intro entry fl fuel hsys hf hct
    have hclean : cleanEntry none entry false =
        Except.error "TypeError: this.locales is undefined at line 209" := by
      simp only [cleanEntry, hsys, hf, pure_bind]
      rw [show objGet (objSet [("fields", JVal.obj [])] "fields" (JVal.obj fl)) "fields" =
            JVal.obj fl from rfl]
      simp [hct]
    unfold getLocalizedEntries
    rw [hclean]
    rfl

/-- C7 witness. -/
theorem C7_witness :
    getLocalizedEntries 5 (some []) E3 = Except.ok (Sum.inr []) ∧
    (getLocalizedEntries 7 none E3ct =
        Except.ok (Sum.inl (mergeFields C7cB (objGet C7cB "fields"))) ∧
      (recordsOf (Sum.inl (mergeFields C7cB (objGet C7cB "fields")) : Obj ⊕ List Obj)).length = 1) ∧
    getLocalizedEntries 9 none E7ns =
      Except.error "TypeError: this.locales is undefined at line 209" :=
  ⟨C7_empty_vs_absent.1 E3 5 C7cA rfl,
   C7_empty_vs_absent.2.1 E3ct 7 C7cB rfl,
   C7_empty_vs_absent.2.2 E7ns FL7 9 rfl rfl rfl⟩

/-! ## Claims C9 and C10: the visited-stack guard of the flattener -/

theorem cleanMoreH_guard_empty (fuel : Nat) (cfg : List (List String)) (H : Heap)
    (a : Nat) (locale : List String) :
    cleanMoreH (fuel + 1) cfg H [] a locale = some (H, a) := by
  simp [cleanMoreH, jsIndexOfNat]

/-- Sanity check that the modelled recursion is real: with the entry
artificially placed at stack position 0 (the only arrangement the guard
lets through) the body re-descends into the self-referential object
forever and exhausts every finite fuel. -/
theorem cleanMoreH_no_fuel_on_cycle (cfg : List (List String)) (locale : List String) :
    ∀ (fuel : Nat) (s : List Nat),
      cleanMoreH fuel cfg cyclicHeap (0 :: s) 0 locale = none := by
  intro fuel
  induction fuel with
  | zero => intro s; simp [cleanMoreH]
  | succ f ih =>
      intro s
      have hguard : jsIndexOfNat (0 :: s) 0 = 0 := by simp [jsIndexOfNat, List.findIdx?]
      have hrec : cleanMoreH f cfg cyclicHeap ((0 :: s) ++ [0]) 0 locale = none := by
        rw [List.cons_append]
        exact ih (s ++ [0])
      simp [cleanMoreH, hguard, cleanMoreGo, cyclicHeap, heapGet, hobjGet, htruthy] at hrec ⊢
      simp [hrec]

/-- C9: for every heap — cyclic content graphs included — and every entry,
the flattening-path invocation of `_cleanMore` (empty defaulted visited
stack) terminates: the result exists and is independent of the recursion
fuel, because the guard returns the entry before any descent. -/
theorem C9_cleanMore_terminates (cfg : List (List String)) (H : Heap) (a : Nat)
    (locale : List String) (fuel : Nat) (hf : 1 ≤ fuel) :
    cleanMoreH fuel cfg H [] a locale = some (H, a) := by
  obtain ⟨f, rfl⟩ : ∃ f, fuel = f + 1 := ⟨fuel - 1, by omega⟩
  exact cleanMoreH_guard_empty f cfg H a locale

/-- C9 witness: the self-referential one-object heap. -/
theorem C9_witness :
    1 ≤ 3 ∧ cleanMoreH 3 [["en"]] cyclicHeap [] 0 ["en"] = some (cyclicHeap, 0) :=
  ⟨by decide, C9_cleanMore_terminates [["en"]] cyclicHeap 0 ["en"] 3 (by decide)⟩

/-- C10: called with the empty (defaulted) visited stack, as the top-level
flattening path does, `_cleanMore` returns its argument unchanged — the
truthiness test on `_.indexOf` sees `-1`, which is truthy — so neither the
nested-entry stripping nor the `elements` collection merging of the body
ever executes for a top-level entry (the heap is returned untouched). -/
theorem C10_top_level_identity (cfg : List (List String)) (H : Heap) (a : Nat)
    (locale : List String) (fuel : Nat) :
    jsIndexOfNat ([] : List Nat) a = -1 ∧
    cleanMoreH (fuel + 1) cfg H [] a locale = some (H, a) :=
  ⟨rfl, cleanMoreH_guard_empty fuel cfg H a locale⟩

/-! ## Toolkit for the diff-engine claims -/

theorem getD_set_self (l : List Entry) (i : Nat) (a : Entry) (h : i < l.length) :
    (l.set i a).getD i default = a := by
  rw [List.getD_eq_getElem _ _ (by rw [List.length_set]; exact h)]
  exact List.getElem_set_self _

theorem getD_set_ne (l : List Entry) {i j : Nat} (a : Entry) (h : i ≠ j) :
    (l.set i a).getD j default = l.getD j default := by
  by_cases hj : j < l.length
  · rw [List.getD_eq_getElem _ _ (by rw [List.length_set]; exact hj),
      List.getD_eq_getElem _ _ hj]
    exact List.getElem_set_ne h _
  · have hj2 : l.length ≤ j := Nat.le_of_not_lt hj
    rw [List.getD_eq_getElem?_getD, List.getD_eq_getElem?_getD,
      List.getElem?_eq_none (by rw [List.length_set]; exact hj2), List.getElem?_eq_none hj2]

theorem keyByLookupAux_shift (data : List Entry) (k : String) :
    ∀ i, keyByLookupAux data k (i + 1) = (keyByLookupAux data k i).map (· + 1) := by
  induction data with
  | nil => intro i; rfl
  | cons e rest ih =>
      intro i
      simp only [keyByLookupAux]
      rw [ih (i + 1)]
      cases h : keyByLookupAux rest k (i + 1) with
      | some j => simp
      | none =>
          cases hk : getEntryKey e == k <;> simp

theorem keyByLookup_cons (e : Entry) (data : List Entry) (k : String) :
    keyByLookup (e :: data) k =
      match keyByLookup data k with
      | some j => some (j + 1)
      | none => if getEntryKey e == k then some 0 else none := by
  unfold keyByLookup
  simp only [keyByLookupAux]
  rw [show (1 : Nat) = 0 + 1 from rfl, keyByLookupAux_shift data k 0]
  cases h : keyByLookupAux data k 0 with
  | some j => simp
  | none => cases hk : getEntryKey e == k <;> simp

theorem keyByLookup_eq_none (data : List Entry) (k : String)
    (h : ∀ e ∈ data, getEntryKey e ≠ k) : keyByLookup data k = none := by
  induction data with
  | nil => rfl
  | cons e rest ih =>
      rw [keyByLookup_cons]
      rw [ih (fun e2 he2 => h e2 (List.mem_cons_of_mem e he2))]
      have hk : (getEntryKey e == k) = false := by
        cases hb : getEntryKey e == k
        · rfl
        · exact absurd (beq_iff_eq.mp hb) (h e (List.mem_cons_self e rest))
      simp [hk]

theorem keyByLookup_some_bound (data : List Entry) (k : String) :
    ∀ i, keyByLookup data k = some i →
      i < data.length ∧ getEntryKey (data.getD i default) = k := by
  induction data with
  | nil => intro i h; exact absurd h (by simp [keyByLookup, keyByLookupAux])
  | cons e rest ih =>
      intro i h
      rw [keyByLookup_cons] at h
      cases hr : keyByLookup rest k with
      | some j =>
          rw [hr] at h
          have hij : i = j + 1 := by
            have := h
            simp at this
            omega
          subst hij
          obtain ⟨hb, hk⟩ := ih j hr
          exact ⟨by simpa using Nat.succ_lt_succ hb, hk⟩
      | none =>
          rw [hr] at h
          cases hk : getEntryKey e == k
          · rw [hk] at h; simp at h
          · rw [hk] at h
            simp at h
            subst h
            exact ⟨by simp, beq_iff_eq.mp hk⟩

theorem keyByLookup_mem_nodup (data : List Entry)
    (hnd : (data.map getEntryKey).Nodup) (e : Entry) (he : e ∈ data) :
    ∃ i, keyByLookup data (getEntryKey e) = some i ∧
      i < data.length ∧ data.getD i default = e := by
  induction data with
  | nil => exact absurd he (List.not_mem_nil e)
  | cons d rest ih =>
      rw [List.map_cons, List.nodup_cons] at hnd
      obtain ⟨hni, hnr⟩ := hnd
      rcases List.mem_cons.mp he with hed | her
      · subst hed
        have hnone : keyByLookup rest (getEntryKey e) = none := by
          apply keyByLookup_eq_none
          intro e2 he2 hk2
          exact hni (hk2 ▸ List.mem_map_of_mem getEntryKey he2)
        refine ⟨0, ?_, by simp, rfl⟩
        rw [keyByLookup_cons, hnone]
        simp
      · obtain ⟨i, hl, hb, hg⟩ := ih hnr her
        refine ⟨i + 1, ?_, by simpa using Nat.succ_lt_succ hb, hg⟩
        rw [keyByLookup_cons, hl]

theorem diffStep_data_length (d0 : List Entry) (fil : Option String)
    (acc : DiffAcc) (h : Hit) :
    (diffStep d0 fil acc h).data.length = acc.data.length := by
  unfold diffStep
  split
  · dsimp only
    split <;> simp [List.length_set]
  · split <;> rfl

theorem getEntryKey_set_objectID (e : Entry) (o : Option String) :
    getEntryKey { e with objectID := o } = getEntryKey e := rfl

theorem key_getD_set (acc : List Entry) (i j : Nat) (e1 : Entry)
    (he1 : getEntryKey e1 = getEntryKey (acc.getD i default)) :
    getEntryKey ((acc.set i e1).getD j default) = getEntryKey (acc.getD j default) := by
  by_cases hij : i = j
  · subst hij
    by_cases hlen : i < acc.length
    · rw [getD_set_self _ _ _ hlen, he1]
    · rw [List.set_eq_of_length_le (Nat.le_of_not_lt hlen)]
  · rw [getD_set_ne _ _ hij]

theorem diffStep_key_preserved (d0 : List Entry) (fil : Option String)
    (acc : DiffAcc) (h : Hit) (j : Nat) :
    getEntryKey ((diffStep d0 fil acc h).data.getD j default) =
      getEntryKey (acc.data.getD j default) := by
  unfold diffStep
  split
  · dsimp only
    split
    all_goals exact key_getD_set acc.data _ _ _ rfl
  · split <;> rfl

theorem foldl_data_length (d0 : List Entry) (fil : Option String) (l : List Hit) :
    ∀ acc : DiffAcc, (l.foldl (diffStep d0 fil) acc).data.length = acc.data.length := by
  induction l with
  | nil => intro acc; rfl
  | cons h t ih => intro acc; rw [List.foldl_cons, ih, diffStep_data_length]

theorem foldl_key_preserved (d0 : List Entry) (fil : Option String) (l : List Hit) :
    ∀ (acc : DiffAcc) (j : Nat),
      getEntryKey ((l.foldl (diffStep d0 fil) acc).data.getD j default) =
        getEntryKey (acc.data.getD j default) := by
  induction l with
  | nil => intro acc j; rfl
  | cons h t ih => intro acc j; rw [List.foldl_cons, ih, diffStep_key_preserved]

theorem diffStep_deleted_mono (d0 : List Entry) (fil : Option String)
    (acc : DiffAcc) (h : Hit) (x : String) (hx : x ∈ acc.deleted) :
    x ∈ (diffStep d0 fil acc h).deleted := by
  unfold diffStep
  split
  · dsimp only
    split <;> exact hx
  · split
    · exact List.mem_append_left _ hx
    · exact hx

theorem diffStep_deleted_src (d0 : List Entry) (fil : Option String)
    (acc : DiffAcc) (h : Hit) (x : String)
    (hx : x ∈ (diffStep d0 fil acc h).deleted) :
    x ∈ acc.deleted ∨ (keyByLookup d0 (hitKey h) = none ∧ x = h.objectID) := by
  unfold diffStep at hx
  split at hx
  · next i heq =>
      dsimp only at hx
      split at hx <;> exact Or.inl hx
  · next hnone =>
      split at hx
      · rcases List.mem_append.mp hx with h1 | h2
        · exact Or.inl h1
        · exact Or.inr ⟨hnone, by simpa using h2⟩
      · exact Or.inl hx

theorem diffStep_deleted_none (d0 : List Entry) (acc : DiffAcc) (h : Hit) :
    (diffStep d0 none acc h).deleted = acc.deleted := by
  unfold diffStep
  split
  · dsimp only
    split <;> rfl
  · rfl

theorem diffStep_deleted_push (d0 : List Entry) (ct : String) (acc : DiffAcc) (h : Hit)
    (hk : keyByLookup d0 (hitKey h) = none) :
    (diffStep d0 (some ct) acc h).deleted = acc.deleted ++ [h.objectID] := by
  unfold diffStep
  rw [hk]

theorem foldl_deleted_mono (d0 : List Entry) (fil : Option String) (l : List Hit) :
    ∀ (acc : DiffAcc) (x : String), x ∈ acc.deleted →
      x ∈ (l.foldl (diffStep d0 fil) acc).deleted := by
  induction l with
  | nil => intro acc x hx; exact hx
  | cons h t ih =>
      intro acc x hx
      rw [List.foldl_cons]
      exact ih _ x (diffStep_deleted_mono d0 fil acc h x hx)

theorem foldl_deleted_src (d0 : List Entry) (fil : Option String) (l : List Hit) :
    ∀ (acc : DiffAcc) (x : String), x ∈ (l.foldl (diffStep d0 fil) acc).deleted →
      x ∈ acc.deleted ∨ ∃ h2 ∈ l, keyByLookup d0 (hitKey h2) = none ∧ x = h2.objectID := by
  induction l with
  | nil => intro acc x hx; exact Or.inl hx
  | cons h t ih =>
      intro acc x hx
      rw [List.foldl_cons] at hx
      rcases ih _ x hx with h1 | ⟨h2, hm, hk2, he2⟩
      · rcases diffStep_deleted_src d0 fil acc h x h1 with h3 | ⟨hk, hx2⟩
        · exact Or.inl h3
        · exact Or.inr ⟨h, List.mem_cons_self h t, hk, hx2⟩
      · exact Or.inr ⟨h2, List.mem_cons_of_mem h hm, hk2, he2⟩

theorem foldl_deleted_none (d0 : List Entry) (l : List Hit) :
    ∀ acc : DiffAcc, (l.foldl (diffStep d0 none) acc).deleted = acc.deleted := by
  induction l with
  | nil => intro acc; rfl
  | cons h t ih => intro acc; rw [List.foldl_cons, ih, diffStep_deleted_none]

theorem diffStep_objID (d0 : List Entry) (fil : Option String)
    (acc : DiffAcc) (h : Hit) (Q : Option String → Prop)
    (hacc : ∀ e ∈ acc.data, Q e.objectID)
    (hh : (keyByLookup d0 (hitKey h)).isSome → Q (some h.objectID)) :
    ∀ e ∈ (diffStep d0 fil acc h).data, Q e.objectID := by
  unfold diffStep
  split
  · next i heq =>
      dsimp only
      have hset : ∀ e ∈ acc.data.set i
          { acc.data.getD i default with objectID := some h.objectID }, Q e.objectID := by
        intro e he
        rcases List.mem_or_eq_of_mem_set he with h1 | h2
        · exact hacc e h1
        · subst h2; exact hh (by rw [heq]; rfl)
      split <;> exact hset
  · split <;> exact hacc

theorem foldl_objID (d0 : List Entry) (fil : Option String) (l : List Hit)
    (Q : Option String → Prop)
    (hl : ∀ h2 ∈ l, (keyByLookup d0 (hitKey h2)).isSome → Q (some h2.objectID)) :
    ∀ acc : DiffAcc, (∀ e ∈ acc.data, Q e.objectID) →
      ∀ e ∈ (l.foldl (diffStep d0 fil) acc).data, Q e.objectID := by
  induction l with
  | nil => intro acc hacc; exact hacc
  | cons h t ih =>
      intro acc hacc
      rw [List.foldl_cons]
      exact ih (fun h2 hm => hl h2 (List.mem_cons_of_mem h hm)) _
        (diffStep_objID d0 fil acc h Q hacc (hl h (List.mem_cons_self h t)))

theorem diffStep_updatedIdx_src (d0 : List Entry) (fil : Option String)
    (acc : DiffAcc) (h : Hit) (i : Nat)
    (hi : i ∈ (diffStep d0 fil acc h).updatedIdx) :
    i ∈ acc.updatedIdx ∨ keyByLookup d0 (hitKey h) = some i := by
  unfold diffStep at hi
  split at hi
  · next j heq =>
      dsimp only at hi
      split at hi
      · exact Or.inl hi
      · rcases List.mem_append.mp hi with h1 | h2
        · exact Or.inl h1
        · have hij : i = j := by simpa using h2
          subst hij
          exact Or.inr heq
  · split at hi <;> exact Or.inl hi

theorem foldl_updatedIdx_src (d0 : List Entry) (fil : Option String) (l : List Hit) :
    ∀ (acc : DiffAcc) (i : Nat), i ∈ (l.foldl (diffStep d0 fil) acc).updatedIdx →
      i ∈ acc.updatedIdx ∨ ∃ h2 ∈ l, keyByLookup d0 (hitKey h2) = some i := by
  induction l with
  | nil => intro acc i hi; exact Or.inl hi
  | cons h t ih =>
      intro acc i hi
      rw [List.foldl_cons] at hi
      rcases ih _ i hi with h1 | ⟨h2, hm, hk2⟩
      · rcases diffStep_updatedIdx_src d0 fil acc h i h1 with h3 | hk
        · exact Or.inl h3
        · exact Or.inr ⟨h, List.mem_cons_self h t, hk⟩
      · exact Or.inr ⟨h2, List.mem_cons_of_mem h hm, hk2⟩

theorem diffStep_getD_untouched (d0 : List Entry) (fil : Option String)
    (acc : DiffAcc) (h : Hit) (i : Nat)
    (hne : keyByLookup d0 (hitKey h) ≠ some i) :
    (diffStep d0 fil acc h).data.getD i default = acc.data.getD i default := by
  unfold diffStep
  split
  · next j heq =>
      dsimp only
      have hij : j ≠ i := fun hji => hne (hji ▸ heq)
      split <;> exact getD_set_ne _ _ hij
  · split <;> rfl

theorem foldl_getD_untouched (d0 : List Entry) (fil : Option String) (l : List Hit)
    (i : Nat) (hl : ∀ h2 ∈ l, keyByLookup d0 (hitKey h2) ≠ some i) :
    ∀ acc : DiffAcc,
      (l.foldl (diffStep d0 fil) acc).data.getD i default = acc.data.getD i default := by
  induction l with
  | nil => intro acc; rfl
  | cons h t ih =>
      intro acc
      rw [List.foldl_cons, ih (fun h2 hm => hl h2 (List.mem_cons_of_mem h hm)),
        diffStep_getD_untouched d0 fil acc h i (hl h (List.mem_cons_self h t))]

theorem diffStep_getD_at_match (d0 : List Entry) (fil : Option String)
    (acc : DiffAcc) (h : Hit) (i : Nat)
    (hk : keyByLookup d0 (hitKey h) = some i) (hlen : i < acc.data.length) :
    (diffStep d0 fil acc h).data.getD i default =
      { acc.data.getD i default with objectID := some h.objectID } := by
  unfold diffStep
  rw [hk]
  dsimp only
  split <;> exact getD_set_self _ _ _ hlen

theorem diffStep_updatedIdx_of_eq (d0 : List Entry) (fil : Option String)
    (acc : DiffAcc) (h : Hit) (i : Nat)
    (hk : keyByLookup d0 (hitKey h) = some i)
    (heq2 : entryHitEq { acc.data.getD i default with objectID := some h.objectID } h = true) :
    (diffStep d0 fil acc h).updatedIdx = acc.updatedIdx := by
  unfold diffStep
  rw [hk]
  dsimp only
  rw [if_pos heq2]

/-! ## Claim C5: snapshot hits with no matching incoming record -/

/-- C5 counterexample.  The claim quantifies over every snapshot hit with
no matching incoming fingerprint and asserts that, whenever a content-type
filter is supplied, the hit objectID lands in `deleted`; but a hit whose
`contentType` differs from the filter is removed by the restriction step
and is never classified, so nothing is deleted here. -/
theorem C5_counterexample : "obj9" ∉ (runDiff [] [hX] (some "post")).deleted := by
  decide

/-- C5 amended: for a snapshot hit whose fingerprint matches no incoming
record, a diff whose content-type filter the hit passes places the hit
objectID in `deleted`; without a filter `deleted` is empty and (for
incoming records that carry no objectID yet, with hit objectIDs unique)
no created or updated record carries the hit objectID. -/
theorem C5_unmatched_hit (data : List Entry) (hits : List Hit) (h : Hit) (ct : String)
    (hh : h ∈ hits)
    (hnokey : ∀ e ∈ data, getEntryKey e ≠ hitKey h)
    (hinit : ∀ e ∈ data, e.objectID = none)
    (huniq : ∀ h2 ∈ hits, h2.objectID = h.objectID → h2 = h) :
    (passesFilter ct h = true → h.objectID ∈ (runDiff data hits (some ct)).deleted) ∧
    (runDiff data hits none).deleted = [] ∧
    (∀ x ∈ (runDiff data hits none).created, x.objectID ≠ some h.objectID) ∧
    (∀ x ∈ (runDiff data hits none).updated, x.objectID ≠ some h.objectID) := by
  have hknone : keyByLookup data (hitKey h) = none := keyByLookup_eq_none data _ hnokey
  have hQ : ∀ e2 ∈ (hits.foldl (diffStep data none) ⟨data, [], []⟩).data,
      e2.objectID ≠ some h.objectID := by
    apply foldl_objID data none hits (fun o => o ≠ some h.objectID)
    · intro h2 hm hsome hcontra
      have hoe : h2.objectID = h.objectID := Option.some.inj hcontra
      have h2h : h2 = h := huniq h2 hm hoe
      rw [h2h, hknone] at hsome
      exact absurd hsome (by simp)
    · intro e2 he2
      rw [hinit e2 he2]
      exact fun hc => Option.noConfusion hc
  refine ⟨?_, ?_, ?_, ?_⟩
  · intro hpass
    have hmem1 : h ∈ hits.filter (passesFilter ct) := List.mem_filter.mpr ⟨hh, hpass⟩
    obtain ⟨s, t, hst⟩ := List.append_of_mem hmem1
    show h.objectID ∈
      ((hits.filter (passesFilter ct)).foldl (diffStep data (some ct)) ⟨data, [], []⟩).deleted
    rw [hst, List.foldl_append, List.foldl_cons]
    apply foldl_deleted_mono
    rw [diffStep_deleted_push data ct _ h hknone]
    exact List.mem_append_right _ (List.mem_singleton.mpr rfl)
  · show (hits.foldl (diffStep data none) ⟨data, [], []⟩).deleted = []
    rw [foldl_deleted_none]
  · intro x hx
    have hx2 : x ∈ (hits.foldl (diffStep data none) ⟨data, [], []⟩).data :=
      (List.mem_filter.mp hx).1
    exact hQ x hx2
  · intro x hx
    obtain ⟨j, hj, hxj⟩ := List.mem_map.mp hx
    subst hxj
    by_cases hlen : j < (hits.foldl (diffStep data none) ⟨data, [], []⟩).data.length
    · have hmem : (hits.foldl (diffStep data none) ⟨data, [], []⟩).data.getD j default ∈
          (hits.foldl (diffStep data none) ⟨data, [], []⟩).data := by
        rw [List.getD_eq_getElem _ _ hlen]
        exact List.getElem_mem hlen
      exact hQ _ hmem
    · rw [List.getD_eq_getElem?_getD, List.getElem?_eq_none (Nat.le_of_not_lt hlen)]
      exact fun hc => Option.noConfusion hc

/-- C5 witness. -/
theorem C5_witness :
    "obj8" ∈ (runDiff [] [hW] (some "page")).deleted ∧
    (runDiff [] [hW] none).deleted = [] := by
  have h := C5_unmatched_hit [] [hW] hW "page"
    (List.mem_singleton.mpr rfl)
    (fun e he => absurd he (List.not_mem_nil e))
    (fun e he => absurd he (List.not_mem_nil e))
    (fun h2 hm _ => List.mem_singleton.mp hm)
  exact ⟨h.1 rfl, h.2.1⟩

/-! ## Claim C6: matched records with identical normalized fields -/

theorem runDiff_unchanged_aux (data : List Entry) (hits1 : List Hit) (h : Hit) (e : Entry)
    (fil : Option String)
    (hdn : (data.map getEntryKey).Nodup)
    (hhn : (hits1.map hitKey).Nodup)
    (hon : (hits1.map Hit.objectID).Nodup)
    (he : e ∈ data)
    (hh : h ∈ hits1)
    (hkey : getEntryKey e = hitKey h)
    (hoid : h.objectID ≠ "")
    (heq : entryHitEq { e with objectID := some h.objectID } h = true)
    (accF : DiffAcc)
    (haccF : accF = hits1.foldl (diffStep data fil) ⟨data, [], []⟩) :
    (∀ x ∈ accF.data.filter (fun e2 =>
        match e2.objectID with
        | none => true
        | some s => s == ""), getEntryKey x ≠ getEntryKey e) ∧
    (∀ x ∈ accF.updatedIdx.map (fun j => accF.data.getD j default),
        getEntryKey x ≠ getEntryKey e) ∧
    h.objectID ∉ accF.deleted := by
  obtain ⟨i, hlook, hilen, hgetD⟩ := keyByLookup_mem_nodup data hdn e he
  have hlook2 : keyByLookup data (hitKey h) = some i := by rw [← hkey]; exact hlook
  obtain ⟨s, t, hst⟩ := List.append_of_mem hh
  have hmapnodup : (s.map hitKey ++ hitKey h :: t.map hitKey).Nodup := by
    have h0 := hhn
    rw [hst] at h0
    simpa using h0
  have hka := List.nodup_append.mp hmapnodup
  have hothers : ∀ h2, (h2 ∈ s ∨ h2 ∈ t) → hitKey h2 ≠ hitKey h := by
    intro h2 hm hk2
    rcases hm with hms | hmt
    · exact hka.2.2 (hk2 ▸ List.mem_map_of_mem hitKey hms) (List.mem_cons_self _ _)
    · have hncons := hka.2.1
      rw [List.nodup_cons] at hncons
      exact hncons.1 (hk2 ▸ List.mem_map_of_mem hitKey hmt)
  have huntouched : ∀ h2, (h2 ∈ s ∨ h2 ∈ t) → keyByLookup data (hitKey h2) ≠ some i := by
    intro h2 hm hk2
    obtain ⟨hb, hkey2⟩ := keyByLookup_some_bound data (hitKey h2) i hk2
    apply hothers h2 hm
    rw [← hkey2, hgetD]
    exact hkey
  have hdecomp : accF = t.foldl (diffStep data fil)
      (diffStep data fil (s.foldl (diffStep data fil) ⟨data, [], []⟩) h) := by
    rw [haccF, hst, List.foldl_append, List.foldl_cons]
  have hs_len : (s.foldl (diffStep data fil) ⟨data, [], []⟩).data.length = data.length :=
    foldl_data_length data fil s ⟨data, [], []⟩
  have hs_at_i : (s.foldl (diffStep data fil) ⟨data, [], []⟩).data.getD i default = e := by
    rw [foldl_getD_untouched data fil s i (fun h2 hm => huntouched h2 (Or.inl hm))]
    exact hgetD
  have hh_at_i : (diffStep data fil (s.foldl (diffStep data fil) ⟨data, [], []⟩) h).data.getD
      i default = { e with objectID := some h.objectID } := by
    rw [diffStep_getD_at_match data fil _ h i hlook2 (by rw [hs_len]; exact hilen), hs_at_i]
  have hh_upd : (diffStep data fil (s.foldl (diffStep data fil) ⟨data, [], []⟩) h).updatedIdx =
      (s.foldl (diffStep data fil) ⟨data, [], []⟩).updatedIdx := by
    apply diffStep_updatedIdx_of_eq data fil _ h i hlook2
    rw [hs_at_i]
    exact heq
  have hF_at_i : accF.data.getD i default = { e with objectID := some h.objectID } := by
    rw [hdecomp, foldl_getD_untouched data fil t i (fun h2 hm => huntouched h2 (Or.inr hm)),
      hh_at_i]
  have hFlen : accF.data.length = data.length := by
    rw [hdecomp, foldl_data_length, diffStep_data_length, hs_len]
  have hFkey : ∀ j, getEntryKey (accF.data.getD j default) =
      getEntryKey (data.getD j default) := by
    intro j
    rw [hdecomp, foldl_key_preserved, diffStep_key_preserved, foldl_key_preserved]
  have hinj : ∀ j, j < data.length →
      getEntryKey (data.getD j default) = getEntryKey (data.getD i default) → j = i := by
    intro j hjl hkj
    have h1 : (data.map getEntryKey).get ⟨j, by simpa using hjl⟩ =
        (data.map getEntryKey).get ⟨i, by simpa using hilen⟩ := by
      rw [List.get_eq_getElem, List.get_eq_getElem, List.getElem_map, List.getElem_map]
      rw [← List.getD_eq_getElem data default hjl, ← List.getD_eq_getElem data default hilen]
      exact hkj
    simpa using (List.Nodup.get_inj_iff hdn).mp h1
  have hiF : i ∉ accF.updatedIdx := by
    intro hiF
    rw [hdecomp] at hiF
    rcases foldl_updatedIdx_src data fil t _ i hiF with h1 | ⟨h2, hm, hk2⟩
    · rw [hh_upd] at h1
      rcases foldl_updatedIdx_src data fil s _ i h1 with h3 | ⟨h2, hm, hk2⟩
      · exact absurd h3 (List.not_mem_nil i)
      · exact huntouched h2 (Or.inl hm) hk2
    · exact huntouched h2 (Or.inr hm) hk2
  refine ⟨?_, ?_, ?_⟩
  · intro x hx hkx
    have hxd : x ∈ accF.data := (List.mem_filter.mp hx).1
    have hpred := (List.mem_filter.mp hx).2
    obtain ⟨j, hj, hxj⟩ := List.mem_iff_getElem.mp hxd
    have hxg : accF.data.getD j default = x := by
      rw [List.getD_eq_getElem _ _ hj]
      exact hxj
    have hji : j = i := by
      apply hinj j (by rw [← hFlen]; exact hj)
      rw [← hFkey j, hxg, hkx, hgetD]
    subst hji
    rw [hF_at_i] at hxg
    rw [← hxg] at hpred
    simp at hpred
    exact hoid hpred
  · intro x hx hkx
    obtain ⟨j, hj, hxj⟩ := List.mem_map.mp hx
    have hjsrc : ∃ h2, (h2 ∈ s ∨ h2 ∈ t) ∧ keyByLookup data (hitKey h2) = some j := by
      rw [hdecomp] at hj
      rcases foldl_updatedIdx_src data fil t _ j hj with h1 | ⟨h2, hm, hk2⟩
      · rw [hh_upd] at h1
        rcases foldl_updatedIdx_src data fil s _ j h1 with h3 | ⟨h2, hm, hk2⟩
        · exact absurd h3 (List.not_mem_nil j)
        · exact ⟨h2, Or.inl hm, hk2⟩
      · exact ⟨h2, Or.inr hm, hk2⟩
    obtain ⟨h2, hm2, hk2⟩ := hjsrc
    have hjb := (keyByLookup_some_bound data (hitKey h2) j hk2).1
    have hji : j = i := by
      apply hinj j hjb
      rw [← hFkey j, hxj, hkx, hgetD]
    subst hji
    exact hiF hj
  · intro hdel
    rw [haccF] at hdel
    rcases foldl_deleted_src data fil hits1 ⟨data, [], []⟩ h.objectID hdel with h1 | ⟨h2, hm, hk2, hoe⟩
    · exact absurd h1 (List.not_mem_nil _)
    · have h2h : h2 = h := List.inj_on_of_nodup_map hon hm hh hoe.symm
      rw [h2h, hlook2] at hk2
      exact Option.noConfusion hk2

/-- C6: an incoming record whose fingerprint matches a snapshot hit and
whose fields — after dropping undefined-valued fields and attaching the
hit objectID — equal the hit fields is placed in none of `created`,
`updated` or `deleted` (no record with its fingerprint appears in the
first two sets, and its objectID is not deleted).  Fingerprints of the
incoming records and of the hits are assumed unique, hit objectIDs unique
and non-empty — the well-formedness the specification itself requires of
the upstream stages and of the index. -/
theorem C6_unchanged_record (data : List Entry) (hits : List Hit) (h : Hit) (e : Entry)
    (ct : Option String)
    (hdn : (data.map getEntryKey).Nodup)
    (hhn : (hits.map hitKey).Nodup)
    (hon : (hits.map Hit.objectID).Nodup)
    (he : e ∈ data)
    (hh : h ∈ hits)
    (hkey : getEntryKey e = hitKey h)
    (hoid : h.objectID ≠ "")
    (hpass : ∀ c, ct = some c → passesFilter c h = true)
    (heq : entryHitEq { e with objectID := some h.objectID } h = true) :
    (∀ x ∈ (runDiff data hits ct).created, getEntryKey x ≠ getEntryKey e) ∧
    (∀ x ∈ (runDiff data hits ct).updated, getEntryKey x ≠ getEntryKey e) ∧
    h.objectID ∉ (runDiff data hits ct).deleted := by
  rcases ct with _ | c
  · exact runDiff_unchanged_aux data hits h e none hdn hhn hon he hh hkey hoid heq _ rfl
  · have hpassc : passesFilter c h = true := hpass c rfl
    have hsub : (hits.filter (passesFilter c)).Sublist hits := List.filter_sublist hits
    have hhn1 : ((hits.filter (passesFilter c)).map hitKey).Nodup :=
      List.Nodup.sublist (List.Sublist.map hitKey hsub) hhn
    have hon1 : ((hits.filter (passesFilter c)).map Hit.objectID).Nodup :=
      List.Nodup.sublist (List.Sublist.map Hit.objectID hsub) hon
    have hh1 : h ∈ hits.filter (passesFilter c) := List.mem_filter.mpr ⟨hh, hpassc⟩
    exact runDiff_unchanged_aux data (hits.filter (passesFilter c)) h e (some c)
      hdn hhn1 hon1 he hh1 hkey hoid heq _ rfl

/-- C6 witness. -/
theorem C6_witness :
    (∀ x ∈ (runDiff [eW] [hMW] none).created, getEntryKey x ≠ getEntryKey eW) ∧
    "obj1" ∉ (runDiff [eW] [hMW] none).deleted := by
  have h := C6_unchanged_record [eW] [hMW] hMW eW none
    (by simp) (by simp) (by simp) (by simp) (by simp)
    rfl (by decide) (fun c hc => Option.noConfusion hc) rfl
  exact ⟨h.1, h.2.2⟩

/-! ## Claim C8: commit on an empty batch -/

/-- C8: committing a batch whose three sets are all empty issues no
network call in any of the three bulk operations (each returns its
literal empty result) and the merged identifier list is empty — for every
behaviour of the index collaborator. -/
theorem C8_commit_empty_batch (netAdd netUpd : List Entry → List String)
    (netDel : List String → List String) :
    indexObjects netAdd netUpd netDel [] [] [] = (0, []) := rfl

end CTA
